import Mathlib

/-!
Verification of the text-segmentation and translation-orchestration core of
`src/translation_model.py` (class `TranslationModel`), with the external
collaborators (the tokenizer as Token Budget Oracle, the model call as
Translation Port) represented as function parameters.

Texts are modelled as `List Char`.  Pure Python string/regex library calls
used by the source are translated into executable Lean functions:
`str.split(sep)`, `str.split()`, `str.strip()`, `str.lower()` and the three
`re.split` patterns of `_chunk_by_tokens`.
-/

set_option autoImplicit false

namespace POC

abbrev Str := List Char

deriving instance DecidableEq for Except

/-- Whitespace predicate modelling the character class Python uses both for
`str.split()` / `str.strip()` and for `\s` in `re` patterns (ASCII whitespace
plus the common Unicode whitespace code points). -/
def pyIsSpace (c : Char) : Bool :=
  c == ' ' || c == '\t' || c == '\n' || c == '\r' || c == '\x0b' || c == '\x0c' ||
  c == '\x1c' || c == '\x1d' || c == '\x1e' || c == '\x1f' || c == '\x85' || c == '\xa0' ||
  c == ' ' || (decide (0x2000 ≤ c.toNat) && decide (c.toNat ≤ 0x200a)) ||
  c == ' ' || c == ' ' || c == ' ' || c == ' ' || c == '　'

/-- Prepend a character to the first word of a word list (the first word is
about to continue leftwards). -/
def glue (c : Char) : List Str → List Str
  | [] => [[c]]
  | w :: ws => (c :: w) :: ws

/-- `s.split()` in Python: the list of maximal runs of non-whitespace
characters of `s`, in order. -/
def pyWords : Str → List Str
  | [] => []
  | c :: rest =>
    if pyIsSpace c then
      pyWords rest
    else
      match rest with
      | [] => [[c]]
      | d :: _ =>
        if pyIsSpace d then [c] :: pyWords rest
        else glue c (pyWords rest)

/-- `s.strip()` in Python: drop leading and trailing whitespace. -/
def pyStrip (s : Str) : Str :=
  ((s.dropWhile pyIsSpace).reverse.dropWhile pyIsSpace).reverse

/-- `c.lower()` for a single character, modelling `str.lower` on the ASCII
range (the only range the language table of the source uses). -/
def pyLowerChar (c : Char) : Char :=
  if decide ('A' ≤ c) && decide (c ≤ 'Z') then Char.ofNat (c.toNat + 32) else c

/-- `s.lower()` in Python, restricted to the ASCII case mapping. -/
def pyLower (s : Str) : Str := s.map pyLowerChar

/-- `sep.join(l)` in Python. -/
def joinSep (sep : Str) : List Str → Str
  | [] => []
  | [x] => x
  | x :: y :: t => x ++ sep ++ joinSep sep (y :: t)

/-- The single-space separator `' '` used by `' '.join`. -/
def sp : Str := [' ']

/-- The paragraph separator `'\n\n'` used by `'\n\n'.join` and
`text.split('\n\n')`. -/
def nn : Str := ['\n', '\n']

/-- Accumulator-passing worker for `text.split('\n\n')`. -/
def splitOnNNAux : Str → Str → List Str
  | acc, [] => [acc.reverse]
  | acc, [c] => [(c :: acc).reverse]
  | acc, c :: d :: rest =>
    if c = '\n' ∧ d = '\n' then acc.reverse :: splitOnNNAux [] rest
    else splitOnNNAux (c :: acc) (d :: rest)

/-- `text.split('\n\n')` in Python: split on each non-overlapping leftmost
occurrence of the two-character separator. -/
def splitOnNN (s : Str) : List Str := splitOnNNAux [] s

/-- Accumulator-passing worker for splitting a text into its lines. -/
def splitOnNLAux : Str → Str → List Str
  | acc, [] => [acc.reverse]
  | acc, c :: rest =>
    if c = '\n' then acc.reverse :: splitOnNLAux [] rest
    else splitOnNLAux (c :: acc) rest

/-- Split a text on every newline character (`text.split('\n')`). -/
def splitOnNL (s : Str) : List Str := splitOnNLAux [] s

/-- Worker modelling `re.split` for the patterns of `_chunk_by_tokens`:
the delimiter is a maximal whitespace run whose immediately preceding
character satisfies `trig` (the look-behind class) and, when `la = some u`,
whose immediately following character satisfies `u` (the look-ahead class).
`acc` is the current piece (reversed) and `ws` a pending whitespace run
(reversed) that may yet turn out to be a delimiter. -/
def reSplitAux (trig : Char → Bool) (la : Option (Char → Bool)) :
    Str → Str → Str → List Str
  | acc, ws, [] =>
    match la, ws with
    | none, _ :: _ => [acc.reverse, []]
    | _, _ => [(ws ++ acc).reverse]
  | acc, ws, c :: rest =>
    if pyIsSpace c then
      match ws with
      | _ :: _ => reSplitAux trig la acc (c :: ws) rest
      | [] =>
        match acc with
        | a :: _ =>
          if trig a then reSplitAux trig la acc [c] rest
          else reSplitAux trig la (c :: acc) [] rest
        | [] => reSplitAux trig la [c] [] rest
    else
      match ws with
      | _ :: _ =>
        match la with
        | none => acc.reverse :: reSplitAux trig la [c] [] rest
        | some u =>
          if u c then acc.reverse :: reSplitAux trig la [c] [] rest
          else reSplitAux trig la (c :: (ws ++ acc)) [] rest
      | [] => reSplitAux trig la (c :: acc) [] rest

/-- Sentence-ending punctuation class `[.!?]` of the source's regexes. -/
def isSentEnd (c : Char) : Bool := c == '.' || c == '!' || c == '?'

/-- Phrase-ending punctuation class `[,;:]` of the source's regex. -/
def isPhraseEnd (c : Char) : Bool := c == ',' || c == ';' || c == ':'

/-- The uppercase class `[A-ZÁÉÍÓÚÀÂÊÔÃÕÇ]` of the sentence-splitting regex. -/
def isUpperPT (c : Char) : Bool :=
  (decide ('A' ≤ c) && decide (c ≤ 'Z')) ||
  c == 'Á' || c == 'É' || c == 'Í' || c == 'Ó' || c == 'Ú' || c == 'À' ||
  c == 'Â' || c == 'Ê' || c == 'Ô' || c == 'Ã' || c == 'Õ' || c == 'Ç'

/-- `re.split(r'(?<=[.!?])\s+(?=[A-ZÁÉÍÓÚÀÂÊÔÃÕÇ])', para)` (line 88 of
`src/translation_model.py`). -/
def reSplitSentU (s : Str) : List Str := reSplitAux isSentEnd (some isUpperPT) [] [] s

/-- `re.split(r'(?<=[.!?])\s+', para)` (line 91, the fallback). -/
def reSplitSentAny (s : Str) : List Str := reSplitAux isSentEnd none [] [] s

/-- `re.split(r'(?<=[,;:])\s+', sentence)` (line 108). -/
def reSplitPhrase (s : Str) : List Str := reSplitAux isPhraseEnd none [] [] s

/-- Lines 88-91 of the source: sentence splitting with fallback when the
capital-aware split produced a single piece. -/
def sentencesOf (p : Str) : List Str :=
  let s1 := reSplitSentU p
  if s1.length = 1 then reSplitSentAny p else s1

/-! ### The Boundary Segmenter `_chunk_by_tokens` (lines 44-175) -/

/-- The mutable accumulation of `_chunk_by_tokens`: the list `chunks`, the
running accumulation `current_chunk` and its token sum `current_tokens`. -/
structure ChunkState where
  chunks : List Str
  cur : List Str
  curTok : Nat
  deriving DecidableEq

/-- The `if current_chunk: chunks.append(sep.join(current_chunk))` flush
blocks (lines 81-84, 101-105, 118-122), which also reset the accumulator. -/
def flushWith (sep : Str) (st : ChunkState) : ChunkState :=
  if st.cur = [] then st else ⟨st.chunks ++ [joinSep sep st.cur], [], 0⟩

/-- One iteration of the word loop (lines 126-137). -/
def wordStep (tok : Str → Nat) (maxT : Nat) (st : ChunkState) (w : Str) : ChunkState :=
  if maxT < st.curTok + tok w then
    ⟨(if st.cur = [] then st.chunks else st.chunks ++ [joinSep sp st.cur]), [w], tok w⟩
  else
    ⟨st.chunks, st.cur ++ [w], st.curTok + tok w⟩

/-- One iteration of the phrase loop (lines 109-147). -/
def phraseStep (tok : Str → Nat) (maxT : Nat) (st : ChunkState) (p : Str) : ChunkState :=
  if pyStrip p = [] then st
  else if maxT < tok p then
    (pyWords p).foldl (wordStep tok maxT) (flushWith sp st)
  else if maxT < st.curTok + tok p then
    ⟨(if st.cur = [] then st.chunks else st.chunks ++ [joinSep sp st.cur]), [p], tok p⟩
  else
    ⟨st.chunks, st.cur ++ [p], st.curTok + tok p⟩

/-- One iteration of the sentence loop (lines 92-157). -/
def sentenceStep (tok : Str → Nat) (maxT : Nat) (st : ChunkState) (s : Str) : ChunkState :=
  if pyStrip s = [] then st
  else if maxT < tok s then
    (reSplitPhrase s).foldl (phraseStep tok maxT) (flushWith sp st)
  else if maxT < st.curTok + tok s then
    ⟨(if st.cur = [] then st.chunks else st.chunks ++ [joinSep sp st.cur]), [s], tok s⟩
  else
    ⟨st.chunks, st.cur ++ [s], st.curTok + tok s⟩

/-- One iteration of the paragraph loop (lines 70-169); flushes at the
paragraph tier join with `'\n\n'` (lines 82 and 163). -/
def paraStep (tok : Str → Nat) (maxT : Nat) (st : ChunkState) (p : Str) : ChunkState :=
  if pyStrip p = [] then st
  else if maxT < tok p then
    (sentencesOf p).foldl (sentenceStep tok maxT) (flushWith nn st)
  else if maxT < st.curTok + tok p then
    ⟨(if st.cur = [] then st.chunks else st.chunks ++ [joinSep nn st.cur]), [p], tok p⟩
  else
    ⟨st.chunks, st.cur ++ [p], st.curTok + tok p⟩

/-- The final flush after the paragraph loop (lines 171-173):
`'\n\n'.join(current_chunk) if len(current_chunk) > 1 else
' '.join(current_chunk)`, appended only when the accumulation is
non-empty. -/
def finishChunks (st : ChunkState) : List Str :=
  if st.cur = [] then st.chunks
  else st.chunks ++
    [if 1 < st.cur.length then joinSep nn st.cur else joinSep sp st.cur]

/-- The paragraph loop over `text.split('\n\n')` (lines 64-169) followed by
the final flush. -/
def chunkCore (tok : Str → Nat) (text : Str) (maxT : Nat) : List Str :=
  finishChunks ((splitOnNN text).foldl (paraStep tok maxT) ⟨[], [], 0⟩)

/-- `_chunk_by_tokens(text, src, max_tokens)` (lines 44-175).  The Token
Budget Oracle (`self.tokenizer(...)['input_ids'].shape[1]` with the source
language set) is the parameter `tok`.  Line 55-56 returns `[]` on empty
text, lines 59-62 return the whole text when it fits the budget, and line
175 is the defensive `return chunks if chunks else [text]`. -/
def chunk_by_tokens (tok : Str → Nat) (text : Str) (maxT : Nat) : List Str :=
  if text = [] then []
  else if tok text ≤ maxT then [text]
  else if chunkCore tok text maxT = [] then [text]
  else chunkCore tok text maxT

/-! ### Language code resolution (lines 8-19, 35-40) -/

/-- The error raised by `_normalize_language_code`
(`ValueError(f"Unsupported language: {lang}")`), carrying the offending
input. -/
inductive TransError where
  | unsupportedLanguage (lang : Str)
  deriving DecidableEq

/-- The static class-level table `LANGUAGE_CODES` (lines 8-19). -/
def LANGUAGE_CODES : List (Str × Str) :=
  [("portuguese".data, "pt".data), ("pt".data, "pt".data),
   ("english".data, "en".data), ("en".data, "en".data),
   ("spanish".data, "es".data), ("es".data, "es".data),
   ("french".data, "fr".data), ("fr".data, "fr".data),
   ("german".data, "de".data), ("de".data, "de".data),
   ("chinese".data, "zh".data), ("zh".data, "zh".data),
   ("arabic".data, "ar".data), ("ar".data, "ar".data),
   ("russian".data, "ru".data), ("ru".data, "ru".data),
   ("japanese".data, "ja".data), ("ja".data, "ja".data),
   ("korean".data, "ko".data), ("ko".data, "ko".data)]

/-- Dictionary lookup `LANGUAGE_CODES[key]` / `key in LANGUAGE_CODES`. -/
def lookupLang (key : Str) : Option Str :=
  (LANGUAGE_CODES.find? (fun kv => kv.1 = key)).map (·.2)

/-- `_normalize_language_code` (lines 35-40): normalize the key with
`(lang or "").lower().strip()` and look it up, raising on a miss. -/
def normalize_language_code (lang : Str) : Except TransError Str :=
  match lookupLang (pyStrip (pyLower lang)) with
  | some code => .ok code
  | none => .error (.unsupportedLanguage lang)

/-! ### The Translation Port call `_translate_batch` (lines 179-204) -/

/-- Result of one `_translate_batch` call.  `outputs` are the decoded
generations (one per input text, here supplied by the Translation Port
parameter).  `warnings` collects the diagnostics the call records: the body
of `_translate_batch` tokenizes with `truncation=True` silently, never
compares token counts with and without the limit, and never inspects the
final generated token, so the code records no diagnostics and this list is
always empty. -/
structure BatchResult where
  outputs : List Str
  warnings : List Str
  deriving DecidableEq

/-- `_translate_batch(texts, src, tgt_lang_id, max_len)` (lines 179-204),
with the tokenize-generate-decode pipeline abstracted as the Translation
Port `port`.  The early return on line 181-182 and the final decode are
both covered by the map; no warning is ever recorded. -/
def translate_batch (port : Str → Str) (texts : List Str) : BatchResult :=
  if texts = [] then ⟨[], []⟩ else ⟨texts.map port, []⟩

/-! ### Progress State and the orchestration loop `translate` (lines 206-243) -/

/-- The shared progress dictionary
`{"current_batch": _, "total_batches": _, "current_text": _}`. -/
structure Progress where
  current_batch : Nat
  total_batches : Nat
  current_text : Str
  deriving DecidableEq

/-- `chunk[:80] + ("..." if len(chunk) > 80 else "")` (line 233). -/
def preview (c : Str) : Str :=
  if 80 < c.length then c.take 80 ++ ['.', '.', '.'] else c

/-- The successive values of the Progress State over the translation loop
(lines 232-240): for the `i`-th unit, the state after the `current_text`
write and the state after the `current_batch` increment. -/
def loopTrace (N : Nat) : Nat → List Str → List Progress
  | _, [] => []
  | i, c :: cs =>
    ⟨i, N, preview c⟩ :: ⟨i + 1, N, preview c⟩ :: loopTrace N (i + 1) cs

/-- Everything observable about one successful `translate` run: the returned
text, the units dispatched to the Translation Port (the `texts` arguments of
the `_translate_batch` calls, in order), every value taken by the Progress
State starting from its reset value, and the diagnostics recorded by the
batch calls (always none). -/
structure RunLog where
  output : Str
  dispatched : List Str
  trace : List Progress
  warnings : List Str
  deriving DecidableEq

/-- The main body of `translate` once both languages resolved to distinct
tags (lines 220-243): chunking with `max_tokens=250` (line 224), the
progress writes (226-227), the sequential loop dispatching
`_translate_batch([chunk], src, tgt_lang_id, max_len=768)` per chunk with
its progress updates (232-240), and the final `"\n\n".join(results)`
(242-243). -/
def mainRun (tok : Str → Nat) (port : Str → Str) (text : Str) : RunLog :=
  let chunks := chunk_by_tokens tok text 250
  let N := chunks.length
  { output := joinSep nn (chunks.map (fun c => (translate_batch port [c]).outputs.headD []))
    dispatched := chunks
    trace := ⟨0, 0, []⟩ :: ⟨0, N, []⟩ :: ⟨0, N, []⟩ :: loopTrace N 0 chunks
    warnings := (chunks.map (fun c => (translate_batch port [c]).warnings)).flatten }

/-- `translate(text, source_lang, target_lang)` (lines 206-243).  `tok` is
the Token Budget Oracle and `port` the Translation Port for the resolved
language pair.  Mirrors the source's control flow: empty-text early return
(212-213), language resolution (215-216), same-tag no-op (217-218), then
the chunked translation loop (`mainRun`). -/
def translate (tok : Str → Nat) (port : Str → Str) (text lang1 lang2 : Str) :
    Except TransError RunLog :=
  if text = [] then .ok ⟨text, [], [], []⟩
  else
    match normalize_language_code lang1 with
    | .error e => .error e
    | .ok src =>
      match normalize_language_code lang2 with
      | .error e => .error e
      | .ok tgt =>
        if src = tgt then .ok ⟨text, [], [], []⟩
        else .ok (mainRun tok port text)

/-! ### The Structural Block Classifier (spec §4.2)

The classifier belongs to the repository's alternative line-oriented
segmentation strategy; its implementation is not among the files under
`src/`, so it is modelled from the specification's words. -/

/-- Modelled from the spec: the typed unit produced by the Structural Block
Classifier — "a typed unit `{kind ∈ {blank, header, bullet, paragraph},
text}`. Blank blocks carry no text". -/
inductive Block where
  | blank
  | header (t : Str)
  | bullet (t : Str)
  | paragraph (t : Str)
  deriving DecidableEq

/-- Modelled from the spec: per-line kind used while classifying; `textLine`
marks a line that is "part of a paragraph". -/
inductive LineKind where
  | blank
  | header
  | bullet
  | textLine
  deriving DecidableEq

/-- Modelled from the spec: "matches a bracket-enclosed placeholder pattern
(`[...]`)". -/
def isBracketPlaceholder (l : Str) : Bool :=
  l.head? == some '[' && l.getLast? == some ']'

/-- Modelled from the spec: "a leading dash/en-dash/bullet glyph or a
Roman-numeral marker followed by a dash, then whitespace". -/
def isRomanChar (c : Char) : Bool :=
  c == 'I' || c == 'V' || c == 'X' || c == 'L' || c == 'C' || c == 'D' || c == 'M'

/-- Modelled from the spec: bullet-line test (see `isRomanChar`). -/
def isBulletLine (l : Str) : Bool :=
  (match l with
   | c :: d :: _ => (c == '-' || c == '–' || c == '•') && pyIsSpace d
   | _ => false) ||
  (let r := l.takeWhile isRomanChar
   decide (r ≠ []) &&
   (match l.drop r.length with
    | '-' :: d :: _ => pyIsSpace d
    | _ => false))

/-- Modelled from the spec: "line classification, evaluated in this priority
order per line: Blank (only whitespace) → blank.  Header: line ends with a
colon, OR is ≤ 50 characters and starts with an uppercase letter, OR matches
a bracket-enclosed placeholder pattern → header.  Bullet: ... → bullet.
Otherwise: part of a paragraph". -/
def classifyLine (l : Str) : LineKind :=
  if pyStrip l = [] then .blank
  else if l.getLast? == some ':' ||
          (decide (l.length ≤ 50) && (l.head?.map Char.isUpper).getD false) ||
          isBracketPlaceholder l then .header
  else if isBulletLine l then .bullet
  else .textLine

/-- Modelled from the spec: greedy grouping of consecutive sentences "such
that each group stays under 200 characters; grouping is greedy and
character-length-based", joining the sentences of a group with single
spaces. -/
def groupSentences (sents : List Str) : List Str :=
  let step := fun (st : List Str × Str) (s : Str) =>
    if st.2 = [] then (st.1, s)
    else if (st.2 ++ sp ++ s).length < 200 then (st.1, st.2 ++ sp ++ s)
    else (st.1 ++ [st.2], s)
  let fin := sents.foldl step ([], [])
  if fin.2 = [] then fin.1 else fin.1 ++ [fin.2]

/-- Modelled from the spec: "a paragraph longer than 250 characters is
further split into sub-blocks by grouping consecutive sentences (split via
punctuation-then-uppercase heuristic, same as §4.1 tier 3)". -/
def paragraphBlocks (p : Str) : List Block :=
  if 250 < p.length then (groupSentences (sentencesOf p)).map .paragraph
  else [.paragraph p]

/-- Modelled from the spec: emit the paragraph block(s) for the pending run
of consecutive paragraph lines, if any. -/
def closeParagraph : Option Str → List Block
  | none => []
  | some p => paragraphBlocks p

/-- Modelled from the spec: worker grouping classified lines into blocks;
"consecutive non-blank, non-header, non-bullet lines are joined with single
spaces into one paragraph block".  The pending paragraph run is carried as
an accumulator and closed when a non-paragraph line (or the end of the
text) is reached. -/
def classifyLinesWorker : Option Str → List Str → List Block
  | acc, [] => closeParagraph acc
  | acc, l :: ls =>
    match classifyLine l with
    | .blank => closeParagraph acc ++ Block.blank :: classifyLinesWorker none ls
    | .header => closeParagraph acc ++ Block.header l :: classifyLinesWorker none ls
    | .bullet => closeParagraph acc ++ Block.bullet l :: classifyLinesWorker none ls
    | .textLine =>
      match acc with
      | none => classifyLinesWorker (some l) ls
      | some p => classifyLinesWorker (some (p ++ sp ++ l)) ls

/-- Modelled from the spec: the Structural Block Classifier's contract
"classify(text) → ordered sequence of Block", classifying the text line by
line. -/
def classify (text : Str) : List Block :=
  classifyLinesWorker none (splitOnNL text)


/-! ### Notions used by the stated properties -/

/-- The ordered sequence of words held by a chunking state: the words of the
emitted chunks followed by the words of the running accumulation. -/
def chunksWords (st : ChunkState) : List Str :=
  (st.chunks.map pyWords).flatten ++ (st.cur.map pyWords).flatten

/-- A single word: non-empty with no embedded whitespace. -/
def Wordish (w : Str) : Prop :=
  w ≠ [] ∧ ∀ c ∈ w, pyIsSpace c = false

/-- The budget invariant claimed for one segment: its token count is within
the budget, or it is exactly one word with no embedded whitespace. -/
def GoodChunk (tok : Str → Nat) (maxT : Nat) (c : Str) : Prop :=
  tok c ≤ maxT ∨ Wordish c

/-- Invariant carried by the chunking loops: `current_tokens` is the sum of
the individual token counts of the accumulated pieces; the accumulation is
within budget unless it is a single oversized word; all emitted chunks
satisfy the budget invariant. -/
def SegInv (tok : Str → Nat) (maxT : Nat) (st : ChunkState) : Prop :=
  st.curTok = (st.cur.map tok).sum ∧
  (st.curTok ≤ maxT ∨ ∃ w, st.cur = [w] ∧ Wordish w) ∧
  ∀ c ∈ st.chunks, GoodChunk tok maxT c

/-- Invariant carried by the chunking loops for the non-blank property:
every emitted chunk and every accumulated piece has at least one word. -/
def NonBlankInv (st : ChunkState) : Prop :=
  (∀ c ∈ st.chunks, pyWords c ≠ []) ∧ (∀ p ∈ st.cur, pyWords p ≠ [])

/-- Subadditivity of a Token Budget Oracle across the two separators the
segmenter inserts: joining two texts with a single space or a double
newline costs at most the sum of their separate counts. -/
def Subadditive (tok : Str → Nat) : Prop :=
  ∀ a b : Str,
    tok (a ++ ' ' :: b) ≤ tok a + tok b ∧
    tok (a ++ '\n' :: '\n' :: b) ≤ tok a + tok b

/-- The monotonicity property the specification assumes of the Token Budget
Oracle: "concatenating two texts' token counts is ≥ either alone". -/
def SpecMonotone (tok : Str → Nat) : Prop :=
  ∀ a b : Str, tok a ≤ tok (a ++ b) ∧ tok b ≤ tok (a ++ b)

/-- A Token Budget Oracle charging `2 ^ length`: deterministic and monotone
in the specification's sense, but not subadditive. -/
def pow2tok (s : Str) : Nat := 2 ^ s.length

/-- A Token Budget Oracle charging one token per whitespace-delimited word. -/
def wordCountTok (s : Str) : Nat := (pyWords s).length

/-- A Token Budget Oracle charging sixty tokens per character. -/
def sixtyTok (s : Str) : Nat := 60 * s.length

/-- A constant Token Budget Oracle charging one token for any text. -/
def oneTok (_ : Str) : Nat := 1

/-- A constant Token Budget Oracle charging a thousand tokens for any text:
every dispatched unit then exceeds the Port input limit of 768. -/
def kiloTok (_ : Str) : Nat := 1000

/-- The run produced by translating `"a"` from English to Portuguese with
the one-token oracle and the identity Translation Port. -/
def unitRun : RunLog :=
  ((translate oneTok id "a".data "en".data "pt".data).toOption).getD ⟨[], [], [], []⟩

/-- The run produced by translating `"hi"` with the thousand-token oracle
(its single dispatched unit overflows the 768-token Port limit). -/
def kiloRun : RunLog :=
  ((translate kiloTok id "hi".data "en".data "pt".data).toOption).getD ⟨[], [], [], []⟩

/-- The run produced by translating `"ab cd ef"` with the sixty-tokens-per-
character oracle, which forces the word-tier fallback of the segmenter. -/
def sixtyRun : RunLog :=
  ((translate sixtyTok id "ab cd ef".data "en".data "pt".data).toOption).getD ⟨[], [], [], []⟩

/-! ### Lemmas: words, stripping and whitespace separators -/

theorem pyWords_cons_space {c : Char} (hc : pyIsSpace c = true) (rest : Str) :
    pyWords (c :: rest) = pyWords rest := by
  rw [pyWords.eq_def]
  simp [hc]

theorem pyWords_singleton_nonspace {c : Char} (hc : pyIsSpace c = false) :
    pyWords [c] = [[c]] := by
  rw [pyWords.eq_def]
  simp [hc]

theorem pyWords_cons_cons_space {c d : Char} (t : Str) (hc : pyIsSpace c = false)
    (hd : pyIsSpace d = true) : pyWords (c :: d :: t) = [c] :: pyWords (d :: t) := by
  rw [pyWords.eq_def]
  simp [hc, hd]

theorem pyWords_cons_cons_nonspace {c d : Char} (t : Str) (hc : pyIsSpace c = false)
    (hd : pyIsSpace d = false) : pyWords (c :: d :: t) = glue c (pyWords (d :: t)) := by
  rw [pyWords.eq_def]
  simp [hc, hd]

theorem pyWords_ne_nil_of_nonspace {d : Char} (t : Str) (hd : pyIsSpace d = false) :
    pyWords (d :: t) ≠ [] := by
  cases t with
  | nil => rw [pyWords_singleton_nonspace hd]; simp
  | cons e t' =>
    by_cases he : pyIsSpace e = true
    · rw [pyWords_cons_cons_space t' hd he]; simp
    · have he' : pyIsSpace e = false := by revert he; cases pyIsSpace e <;> simp
      rw [pyWords_cons_cons_nonspace t' hd he']
      cases pyWords (e :: t') <;> simp [glue]

theorem pyWords_eq_nil_iff (s : Str) : pyWords s = [] ↔ ∀ c ∈ s, pyIsSpace c = true := by
  induction s with
  | nil => simp [pyWords]
  | cons c rest ih =>
    by_cases hc : pyIsSpace c = true
    · rw [pyWords_cons_space hc rest]
      simp only [List.mem_cons, ih]
      constructor
      · intro h x hx
        rcases hx with h1 | h2
        · subst h1; exact hc
        · exact h x h2
      · intro h x hx; exact h x (Or.inr hx)
    · have hc' : pyIsSpace c = false := by revert hc; cases pyIsSpace c <;> simp
      constructor
      · intro h; exact absurd h (pyWords_ne_nil_of_nonspace rest hc')
      · intro h; exact absurd (h c (List.mem_cons_self c rest)) (by simp [hc'])

theorem mem_pyWords : ∀ {s w : Str}, w ∈ pyWords s → w ≠ [] ∧ ∀ c ∈ w, pyIsSpace c = false := by
  intro s
  induction s with
  | nil => intro w h; simp [pyWords] at h
  | cons c rest ih =>
    intro w h
    by_cases hc : pyIsSpace c = true
    · rw [pyWords_cons_space hc rest] at h
      exact ih h
    · have hc' : pyIsSpace c = false := by revert hc; cases pyIsSpace c <;> simp
      cases rest with
      | nil =>
        rw [pyWords_singleton_nonspace hc'] at h
        simp at h
        subst h
        refine ⟨by simp, ?_⟩
        intro x hx
        simp at hx
        subst hx
        exact hc'
      | cons d t =>
        by_cases hd : pyIsSpace d = true
        · rw [pyWords_cons_cons_space t hc' hd] at h
          rcases List.mem_cons.mp h with h1 | h2
          · subst h1
            refine ⟨by simp, ?_⟩
            intro x hx
            simp at hx
            subst hx
            exact hc'
          · exact ih h2
        · have hd' : pyIsSpace d = false := by revert hd; cases pyIsSpace d <;> simp
          rw [pyWords_cons_cons_nonspace t hc' hd'] at h
          rcases hg : pyWords (d :: t) with _ | ⟨w0, ws0⟩
          · exact absurd hg (pyWords_ne_nil_of_nonspace t hd')
          · rw [hg] at h
            simp only [glue] at h
            rcases List.mem_cons.mp h with h1 | h2
            · subst h1
              rcases ih (hg ▸ List.mem_cons_self w0 ws0) with ⟨hw1, hw2⟩
              refine ⟨by simp, ?_⟩
              intro x hx
              rcases List.mem_cons.mp hx with h3 | h4
              · subst h3; exact hc'
              · exact hw2 x h4
            · exact ih (hg ▸ List.mem_cons_of_mem w0 h2)

theorem pyWords_of_word : ∀ {w : Str}, w ≠ [] → (∀ c ∈ w, pyIsSpace c = false) →
    pyWords w = [w] := by
  intro w
  induction w with
  | nil => intro h _; exact absurd rfl h
  | cons c rest ih =>
    intro _ hall
    have hc : pyIsSpace c = false := hall c (List.mem_cons_self c rest)
    cases rest with
    | nil => exact pyWords_singleton_nonspace hc
    | cons d t =>
      have hd : pyIsSpace d = false := hall d (by simp)
      have h1 : pyWords (d :: t) = [d :: t] :=
        ih (by simp) (fun x hx => hall x (List.mem_cons_of_mem c hx))
      rw [pyWords_cons_cons_nonspace t hc hd, h1]
      rfl

theorem pyWords_append_space {c : Char} (hc : pyIsSpace c = true) :
    ∀ (a b : Str), pyWords (a ++ c :: b) = pyWords a ++ pyWords b := by
  intro a
  induction a with
  | nil =>
    intro b
    simp only [List.nil_append, pyWords_cons_space hc]
    rw [show pyWords ([] : Str) = [] from rfl, List.nil_append]
  | cons x a' ih =>
    intro b
    by_cases hx : pyIsSpace x = true
    · simp only [List.cons_append]
      rw [pyWords_cons_space hx, pyWords_cons_space hx, ih]
    · have hx' : pyIsSpace x = false := by revert hx; cases pyIsSpace x <;> simp
      cases a' with
      | nil =>
        simp only [List.cons_append, List.nil_append]
        rw [pyWords_cons_cons_space b hx' hc, pyWords_cons_space hc,
          pyWords_singleton_nonspace hx']
        rfl
      | cons d t =>
        by_cases hd : pyIsSpace d = true
        · simp only [List.cons_append]
          rw [pyWords_cons_cons_space (t ++ c :: b) hx' hd,
            show d :: (t ++ c :: b) = (d :: t) ++ c :: b from rfl, ih,
            pyWords_cons_cons_space t hx' hd]
          rfl
        · have hd' : pyIsSpace d = false := by revert hd; cases pyIsSpace d <;> simp
          simp only [List.cons_append]
          rw [pyWords_cons_cons_nonspace (t ++ c :: b) hx' hd',
            show d :: (t ++ c :: b) = (d :: t) ++ c :: b from rfl, ih,
            pyWords_cons_cons_nonspace t hx' hd']
          rcases hg : pyWords (d :: t) with _ | ⟨w0, ws0⟩
          · exact absurd hg (pyWords_ne_nil_of_nonspace t hd')
          · simp [glue]

theorem pyWords_spaces_prepend : ∀ {s : Str}, (∀ c ∈ s, pyIsSpace c = true) →
    ∀ (b : Str), pyWords (s ++ b) = pyWords b := by
  intro s
  induction s with
  | nil => intro _ b; simp
  | cons c s' ih =>
    intro h b
    simp only [List.cons_append]
    rw [pyWords_cons_space (h c (List.mem_cons_self c s'))]
    exact ih (fun x hx => h x (List.mem_cons_of_mem c hx)) b

theorem pyWords_spaces_append (a : Str) {s : Str} (hs : ∀ c ∈ s, pyIsSpace c = true) :
    pyWords (a ++ s) = pyWords a := by
  cases s with
  | nil => simp
  | cons c s' =>
    rw [pyWords_append_space (hs c (List.mem_cons_self c s')) a s']
    rw [(pyWords_eq_nil_iff s').mpr (fun x hx => hs x (List.mem_cons_of_mem c hx))]
    simp

theorem pyWords_append_sepStr (a : Str) {sep : Str} (h1 : sep ≠ [])
    (h2 : ∀ c ∈ sep, pyIsSpace c = true) (b : Str) :
    pyWords (a ++ sep ++ b) = pyWords a ++ pyWords b := by
  cases sep with
  | nil => exact absurd rfl h1
  | cons c s' =>
    rw [show a ++ (c :: s') ++ b = a ++ c :: (s' ++ b) by simp]
    rw [pyWords_append_space (h2 c (List.mem_cons_self c s')) a (s' ++ b)]
    rw [pyWords_spaces_prepend (fun x hx => h2 x (List.mem_cons_of_mem c hx)) b]

theorem pyWords_joinSep {sep : Str} (h1 : sep ≠ []) (h2 : ∀ c ∈ sep, pyIsSpace c = true) :
    ∀ (l : List Str), pyWords (joinSep sep l) = (l.map pyWords).flatten := by
  intro l
  induction l with
  | nil => simp [joinSep, pyWords]
  | cons x t ih =>
    cases t with
    | nil => simp [joinSep]
    | cons y u =>
      rw [joinSep, pyWords_append_sepStr x h1 h2 (joinSep sep (y :: u)), ih]
      simp

theorem nn_ne_nil : nn ≠ [] := by decide

theorem nn_spaces : ∀ c ∈ nn, pyIsSpace c = true := by decide

theorem sp_ne_nil : sp ≠ [] := by decide

theorem sp_spaces : ∀ c ∈ sp, pyIsSpace c = true := by decide

theorem pyStrip_eq_nil_iff (s : Str) : pyStrip s = [] ↔ ∀ c ∈ s, pyIsSpace c = true := by
  unfold pyStrip
  rw [List.reverse_eq_nil_iff, List.dropWhile_eq_nil_iff]
  constructor
  · intro h c hc
    rw [← List.takeWhile_append_dropWhile (p := pyIsSpace) (l := s)] at hc
    rcases List.mem_append.mp hc with h1 | h2
    · exact List.mem_takeWhile_imp h1
    · exact h c (List.mem_reverse.mpr h2)
  · intro h c hc
    exact h c ((List.dropWhile_sublist pyIsSpace).subset (List.mem_reverse.mp hc))

theorem pyWords_nil_iff_strip (s : Str) : pyWords s = [] ↔ pyStrip s = [] := by
  rw [pyStrip_eq_nil_iff, pyWords_eq_nil_iff]

theorem splitOnNNAux_words : ∀ (acc s : Str),
    ((splitOnNNAux acc s).map pyWords).flatten = pyWords (acc.reverse ++ s) := by
  intro acc s
  induction acc, s using splitOnNNAux.induct with
  | case1 acc => simp [splitOnNNAux]
  | case2 acc c => simp [splitOnNNAux]
  | case3 acc c d rest h ih =>
    obtain ⟨hc, hd⟩ := h
    subst hc
    subst hd
    rw [splitOnNNAux, if_pos ⟨rfl, rfl⟩]
    simp only [List.map_cons, List.flatten_cons]
    rw [ih]
    rw [show List.reverse ([] : Str) ++ rest = rest by simp]
    rw [show acc.reverse ++ '\n' :: '\n' :: rest = acc.reverse ++ nn ++ rest by simp [nn]]
    rw [pyWords_append_sepStr acc.reverse nn_ne_nil nn_spaces rest]
  | case4 acc c d rest h ih =>
    rw [splitOnNNAux, if_neg h, ih]
    simp

theorem splitOnNN_words (s : Str) :
    ((splitOnNN s).map pyWords).flatten = pyWords s := by
  unfold splitOnNN
  rw [splitOnNNAux_words]
  simp

theorem reSplitAux_words (trig : Char → Bool) (la : Option (Char → Bool)) :
    ∀ (acc ws s : Str), (∀ c ∈ ws, pyIsSpace c = true) →
      ((reSplitAux trig la acc ws s).map pyWords).flatten =
        pyWords (acc.reverse ++ ws.reverse ++ s) := by
  intro acc ws s
  induction acc, ws, s using reSplitAux.induct trig la with
  | case1 acc a tail hla =>
    intro hws
    subst hla
    rw [reSplitAux.eq_def]
    simp only [List.map_cons, List.map_nil, List.flatten_cons, List.flatten_nil]
    rw [show pyWords ([] : Str) = [] from rfl]
    simp only [List.append_nil]
    rw [pyWords_spaces_append acc.reverse
      (fun c hc => hws c (List.mem_reverse.mp hc))]
  | case2 acc ws h =>
    intro hws
    have hbase : reSplitAux trig la acc ws [] = [(ws ++ acc).reverse] := by
      rw [reSplitAux.eq_def]
      rcases la with _ | u
      · rcases ws with _ | ⟨a, tail⟩
        · rfl
        · exact (h a tail rfl rfl).elim
      · rcases ws with _ | ⟨a, tail⟩ <;> rfl
    rw [hbase]
    simp [List.reverse_append]
  | case3 acc c rest hc a tail ih =>
    intro hws
    have hws2 : ∀ x ∈ c :: a :: tail, pyIsSpace x = true := by
      intro x hx
      rcases List.mem_cons.mp hx with h1 | h2
      · subst h1; exact hc
      · exact hws x h2
    rw [reSplitAux.eq_def]
    simp only [hc, if_true]
    rw [ih hws2]
    simp [List.append_assoc]
  | case4 c rest hc a tail htr ih =>
    intro hws
    have hws2 : ∀ x ∈ [c], pyIsSpace x = true := by
      intro x hx
      simp at hx
      subst hx
      exact hc
    rw [reSplitAux.eq_def]
    simp only [hc, if_true, htr]
    rw [ih hws2]
    simp
  | case5 c rest hc a tail htr ih =>
    intro hws
    rw [reSplitAux.eq_def]
    simp only [hc, if_true, htr, Bool.false_eq_true, if_false]
    rw [ih (by intro x hx; simp at hx)]
    simp
  | case6 c rest hc ih =>
    intro hws
    rw [reSplitAux.eq_def]
    simp only [hc, if_true]
    rw [ih (by intro x hx; simp at hx)]
    simp
  | case7 acc c rest hc a tail hla ih =>
    intro hws
    subst hla
    rw [reSplitAux.eq_def]
    simp only [hc, Bool.false_eq_true, if_false]
    simp only [List.map_cons, List.flatten_cons]
    rw [ih (by intro x hx; simp at hx)]
    rw [show List.reverse [c] ++ List.reverse ([] : Str) ++ rest = c :: rest by simp]
    rw [pyWords_append_sepStr acc.reverse (by simp)
      (fun x hx => hws x (List.mem_reverse.mp hx)) (c :: rest)]
  | case8 acc c rest hc a tail u hla hu ih =>
    intro hws
    subst hla
    rw [reSplitAux.eq_def]
    simp only [hc, Bool.false_eq_true, if_false, hu, if_true]
    simp only [List.map_cons, List.flatten_cons]
    rw [ih (by intro x hx; simp at hx)]
    rw [show List.reverse [c] ++ List.reverse ([] : Str) ++ rest = c :: rest by simp]
    rw [pyWords_append_sepStr acc.reverse (by simp)
      (fun x hx => hws x (List.mem_reverse.mp hx)) (c :: rest)]
  | case9 acc c rest hc a tail u hla hu ih =>
    intro hws
    subst hla
    rw [reSplitAux.eq_def]
    simp only [hc, Bool.false_eq_true, if_false, hu]
    rw [ih (by intro x hx; simp at hx)]
    simp [List.append_assoc]
  | case10 acc c rest hc ih =>
    intro hws
    rw [reSplitAux.eq_def]
    simp only [hc, Bool.false_eq_true, if_false]
    rw [ih (by intro x hx; simp at hx)]
    simp

theorem reSplitSentU_words (s : Str) :
    ((reSplitSentU s).map pyWords).flatten = pyWords s := by
  unfold reSplitSentU
  rw [reSplitAux_words isSentEnd (some isUpperPT) [] [] s (by intro c hc; simp at hc)]
  simp

theorem reSplitSentAny_words (s : Str) :
    ((reSplitSentAny s).map pyWords).flatten = pyWords s := by
  unfold reSplitSentAny
  rw [reSplitAux_words isSentEnd none [] [] s (by intro c hc; simp at hc)]
  simp

theorem reSplitPhrase_words (s : Str) :
    ((reSplitPhrase s).map pyWords).flatten = pyWords s := by
  unfold reSplitPhrase
  rw [reSplitAux_words isPhraseEnd none [] [] s (by intro c hc; simp at hc)]
  simp

theorem sentencesOf_words (p : Str) :
    ((sentencesOf p).map pyWords).flatten = pyWords p := by
  simp only [sentencesOf]
  split
  · exact reSplitSentAny_words p
  · exact reSplitSentU_words p

/-! ### Word preservation through the chunking state machine -/

theorem chunksWords_flushWith {sep : Str} (h1 : sep ≠ [])
    (h2 : ∀ c ∈ sep, pyIsSpace c = true) (st : ChunkState) :
    chunksWords (flushWith sep st) = chunksWords st := by
  unfold flushWith
  split
  · rfl
  · unfold chunksWords
    simp [pyWords_joinSep h1 h2]

theorem chunksWords_emit {sep : Str} (h1 : sep ≠ [])
    (h2 : ∀ c ∈ sep, pyIsSpace c = true) (st : ChunkState) (p : Str) (pc : Nat) :
    chunksWords ⟨(if st.cur = [] then st.chunks else st.chunks ++ [joinSep sep st.cur]),
        [p], pc⟩ = chunksWords st ++ pyWords p := by
  unfold chunksWords
  split
  · rename_i hcur
    simp [hcur]
  · simp [pyWords_joinSep h1 h2, List.append_assoc]

theorem chunksWords_push (st : ChunkState) (p : Str) (pc : Nat) :
    chunksWords ⟨st.chunks, st.cur ++ [p], pc⟩ = chunksWords st ++ pyWords p := by
  unfold chunksWords
  simp [List.append_assoc]

theorem chunksWords_wordStep (tok : Str → Nat) (maxT : Nat) (st : ChunkState) {w : Str}
    (hw : Wordish w) : chunksWords (wordStep tok maxT st w) = chunksWords st ++ [w] := by
  obtain ⟨hw1, hw2⟩ := hw
  have hpw : pyWords w = [w] := pyWords_of_word hw1 hw2
  unfold wordStep
  split
  · rw [chunksWords_emit sp_ne_nil sp_spaces st w (tok w), hpw]
  · rw [chunksWords_push st w (st.curTok + tok w), hpw]

theorem chunksWords_wordFold (tok : Str → Nat) (maxT : Nat) :
    ∀ (ws : List Str) (st : ChunkState), (∀ w ∈ ws, Wordish w) →
      chunksWords (ws.foldl (wordStep tok maxT) st) = chunksWords st ++ ws := by
  intro ws
  induction ws with
  | nil => intro st _; simp
  | cons w ws2 ih =>
    intro st hall
    simp only [List.foldl_cons]
    rw [ih _ (fun x hx => hall x (List.mem_cons_of_mem w hx))]
    rw [chunksWords_wordStep tok maxT st (hall w (List.mem_cons_self w ws2))]
    simp

theorem chunksWords_phraseStep (tok : Str → Nat) (maxT : Nat) (st : ChunkState) (p : Str) :
    chunksWords (phraseStep tok maxT st p) = chunksWords st ++ pyWords p := by
  unfold phraseStep
  split
  · rename_i hblank
    rw [(pyWords_nil_iff_strip p).mpr hblank]
    simp
  · split
    · rw [chunksWords_wordFold tok maxT (pyWords p) (flushWith sp st)
        (fun w hw => ⟨(mem_pyWords hw).1, (mem_pyWords hw).2⟩)]
      rw [chunksWords_flushWith sp_ne_nil sp_spaces st]
    · split
      · exact chunksWords_emit sp_ne_nil sp_spaces st p (tok p)
      · exact chunksWords_push st p (st.curTok + tok p)

theorem chunksWords_phraseFold (tok : Str → Nat) (maxT : Nat) :
    ∀ (ps : List Str) (st : ChunkState),
      chunksWords (ps.foldl (phraseStep tok maxT) st) =
        chunksWords st ++ (ps.map pyWords).flatten := by
  intro ps
  induction ps with
  | nil => intro st; simp
  | cons p ps2 ih =>
    intro st
    simp only [List.foldl_cons]
    rw [ih, chunksWords_phraseStep tok maxT st p]
    simp

theorem chunksWords_sentenceStep (tok : Str → Nat) (maxT : Nat) (st : ChunkState) (s : Str) :
    chunksWords (sentenceStep tok maxT st s) = chunksWords st ++ pyWords s := by
  unfold sentenceStep
  split
  · rename_i hblank
    rw [(pyWords_nil_iff_strip s).mpr hblank]
    simp
  · split
    · rw [chunksWords_phraseFold tok maxT (reSplitPhrase s) (flushWith sp st)]
      rw [chunksWords_flushWith sp_ne_nil sp_spaces st, reSplitPhrase_words s]
    · split
      · exact chunksWords_emit sp_ne_nil sp_spaces st s (tok s)
      · exact chunksWords_push st s (st.curTok + tok s)

theorem chunksWords_sentFold (tok : Str → Nat) (maxT : Nat) :
    ∀ (ss : List Str) (st : ChunkState),
      chunksWords (ss.foldl (sentenceStep tok maxT) st) =
        chunksWords st ++ (ss.map pyWords).flatten := by
  intro ss
  induction ss with
  | nil => intro st; simp
  | cons s ss2 ih =>
    intro st
    simp only [List.foldl_cons]
    rw [ih, chunksWords_sentenceStep tok maxT st s]
    simp

theorem chunksWords_paraStep (tok : Str → Nat) (maxT : Nat) (st : ChunkState) (p : Str) :
    chunksWords (paraStep tok maxT st p) = chunksWords st ++ pyWords p := by
  unfold paraStep
  split
  · rename_i hblank
    rw [(pyWords_nil_iff_strip p).mpr hblank]
    simp
  · split
    · rw [chunksWords_sentFold tok maxT (sentencesOf p) (flushWith nn st)]
      rw [chunksWords_flushWith nn_ne_nil nn_spaces st, sentencesOf_words p]
    · split
      · exact chunksWords_emit nn_ne_nil nn_spaces st p (tok p)
      · exact chunksWords_push st p (st.curTok + tok p)

theorem chunksWords_paraFold (tok : Str → Nat) (maxT : Nat) :
    ∀ (ps : List Str) (st : ChunkState),
      chunksWords (ps.foldl (paraStep tok maxT) st) =
        chunksWords st ++ (ps.map pyWords).flatten := by
  intro ps
  induction ps with
  | nil => intro st; simp
  | cons p ps2 ih =>
    intro st
    simp only [List.foldl_cons]
    rw [ih, chunksWords_paraStep tok maxT st p]
    simp

theorem finishChunks_words (st : ChunkState) :
    ((finishChunks st).map pyWords).flatten = chunksWords st := by
  unfold finishChunks chunksWords
  split
  · rename_i hcur
    simp [hcur]
  · split
    · simp [pyWords_joinSep nn_ne_nil nn_spaces]
    · simp [pyWords_joinSep sp_ne_nil sp_spaces]

theorem chunkCore_words (tok : Str → Nat) (text : Str) (maxT : Nat) :
    ((chunkCore tok text maxT).map pyWords).flatten = pyWords text := by
  unfold chunkCore
  rw [finishChunks_words]
  rw [chunksWords_paraFold tok maxT (splitOnNN text) ⟨[], [], 0⟩, splitOnNN_words text]
  unfold chunksWords
  simp

theorem chunk_by_tokens_words (tok : Str → Nat) (text : Str) (maxT : Nat) :
    ((chunk_by_tokens tok text maxT).map pyWords).flatten = pyWords text := by
  unfold chunk_by_tokens
  split
  · rename_i htext
    subst htext
    simp [pyWords]
  · split
    · simp
    · split
      · simp
      · exact chunkCore_words tok text maxT

/-! ### The budget invariant under a subadditive oracle -/

theorem tok_joinSep_sp {tok : Str → Nat} (hsub : Subadditive tok) :
    ∀ (l : List Str), l ≠ [] → tok (joinSep sp l) ≤ (l.map tok).sum := by
  intro l
  induction l with
  | nil => intro h; exact absurd rfl h
  | cons x t ih =>
    intro _
    cases t with
    | nil => simp [joinSep]
    | cons y u =>
      rw [joinSep, List.append_assoc, show sp ++ joinSep sp (y :: u) = ' ' :: joinSep sp (y :: u) from rfl]
      calc tok (x ++ ' ' :: joinSep sp (y :: u)) ≤ tok x + tok (joinSep sp (y :: u)) :=
            (hsub x (joinSep sp (y :: u))).1
        _ ≤ tok x + ((y :: u).map tok).sum := Nat.add_le_add_left (ih (by simp)) (tok x)
        _ = ((x :: y :: u).map tok).sum := by simp

theorem tok_joinSep_nn {tok : Str → Nat} (hsub : Subadditive tok) :
    ∀ (l : List Str), l ≠ [] → tok (joinSep nn l) ≤ (l.map tok).sum := by
  intro l
  induction l with
  | nil => intro h; exact absurd rfl h
  | cons x t ih =>
    intro _
    cases t with
    | nil => simp [joinSep]
    | cons y u =>
      rw [joinSep, List.append_assoc,
        show nn ++ joinSep nn (y :: u) = '\n' :: '\n' :: joinSep nn (y :: u) from rfl]
      calc tok (x ++ '\n' :: '\n' :: joinSep nn (y :: u))
            ≤ tok x + tok (joinSep nn (y :: u)) := (hsub x (joinSep nn (y :: u))).2
        _ ≤ tok x + ((y :: u).map tok).sum := Nat.add_le_add_left (ih (by simp)) (tok x)
        _ = ((x :: y :: u).map tok).sum := by simp

theorem GoodChunk_join {tok : Str → Nat} {maxT : Nat} (hsub : Subadditive tok)
    {sep : Str} (hsep : sep = sp ∨ sep = nn) {l : List Str} (hl : l ≠ [])
    (h : ((l.map tok).sum ≤ maxT) ∨ ∃ w, l = [w] ∧ Wordish w) :
    GoodChunk tok maxT (joinSep sep l) := by
  rcases h with h | ⟨w, hw1, hw2⟩
  · left
    rcases hsep with h2 | h2 <;> subst h2
    · exact le_trans (tok_joinSep_sp hsub l hl) h
    · exact le_trans (tok_joinSep_nn hsub l hl) h
  · subst hw1
    right
    rcases hsep with h2 | h2 <;> subst h2 <;> simpa [joinSep] using hw2

theorem SegInv_init (tok : Str → Nat) (maxT : Nat) : SegInv tok maxT ⟨[], [], 0⟩ := by
  refine ⟨by simp, Or.inl (Nat.zero_le maxT), by simp⟩

theorem SegInv_flushWith {tok : Str → Nat} {maxT : Nat} (hsub : Subadditive tok)
    {sep : Str} (hsep : sep = sp ∨ sep = nn) {st : ChunkState}
    (h : SegInv tok maxT st) : SegInv tok maxT (flushWith sep st) := by
  obtain ⟨h1, h2, h3⟩ := h
  unfold flushWith
  split
  · exact ⟨h1, h2, h3⟩
  · rename_i hcur
    refine ⟨by simp, Or.inl (Nat.zero_le maxT), ?_⟩
    intro c hc
    rcases List.mem_append.mp hc with hmem | hmem
    · exact h3 c hmem
    · rw [List.mem_singleton.mp hmem]
      refine GoodChunk_join hsub hsep hcur ?_
      rcases h2 with h2 | h2
      · exact Or.inl (h1 ▸ h2)
      · exact Or.inr h2

theorem SegInv_emit {tok : Str → Nat} {maxT : Nat} (hsub : Subadditive tok)
    {sep : Str} (hsep : sep = sp ∨ sep = nn) {st : ChunkState} (p : Str)
    (h : SegInv tok maxT st) (hp : tok p ≤ maxT ∨ Wordish p) :
    SegInv tok maxT
      ⟨(if st.cur = [] then st.chunks else st.chunks ++ [joinSep sep st.cur]), [p], tok p⟩ := by
  obtain ⟨h1, h2, h3⟩ := h
  refine ⟨by simp, ?_, ?_⟩
  · rcases hp with hp | hp
    · exact Or.inl hp
    · exact Or.inr ⟨p, rfl, hp⟩
  · intro c hc
    split at hc
    · exact h3 c hc
    · rename_i hcur
      rcases List.mem_append.mp hc with hmem | hmem
      · exact h3 c hmem
      · rw [List.mem_singleton.mp hmem]
        refine GoodChunk_join hsub hsep hcur ?_
        rcases h2 with h2 | h2
        · exact Or.inl (h1 ▸ h2)
        · exact Or.inr h2

theorem SegInv_push {tok : Str → Nat} {maxT : Nat} {st : ChunkState} (p : Str)
    (h : SegInv tok maxT st) (hle : st.curTok + tok p ≤ maxT) :
    SegInv tok maxT ⟨st.chunks, st.cur ++ [p], st.curTok + tok p⟩ := by
  obtain ⟨h1, h2, h3⟩ := h
  refine ⟨?_, Or.inl hle, h3⟩
  simp [h1]

theorem SegInv_wordStep {tok : Str → Nat} {maxT : Nat} (hsub : Subadditive tok)
    {st : ChunkState} {w : Str} (hw : Wordish w) (h : SegInv tok maxT st) :
    SegInv tok maxT (wordStep tok maxT st w) := by
  unfold wordStep
  split
  · exact SegInv_emit hsub (Or.inl rfl) w h (Or.inr hw)
  · rename_i hle
    exact SegInv_push w h (Nat.le_of_not_lt hle)

theorem SegInv_wordFold {tok : Str → Nat} {maxT : Nat} (hsub : Subadditive tok) :
    ∀ (ws : List Str) (st : ChunkState), (∀ w ∈ ws, Wordish w) → SegInv tok maxT st →
      SegInv tok maxT (ws.foldl (wordStep tok maxT) st) := by
  intro ws
  induction ws with
  | nil => intro st _ h; exact h
  | cons w ws2 ih =>
    intro st hall h
    simp only [List.foldl_cons]
    exact ih _ (fun x hx => hall x (List.mem_cons_of_mem w hx))
      (SegInv_wordStep hsub (hall w (List.mem_cons_self w ws2)) h)

theorem SegInv_phraseStep {tok : Str → Nat} {maxT : Nat} (hsub : Subadditive tok)
    {st : ChunkState} (p : Str) (h : SegInv tok maxT st) :
    SegInv tok maxT (phraseStep tok maxT st p) := by
  unfold phraseStep
  split
  · exact h
  · split
    · exact SegInv_wordFold hsub (pyWords p) (flushWith sp st)
        (fun w hw => ⟨(mem_pyWords hw).1, (mem_pyWords hw).2⟩)
        (SegInv_flushWith hsub (Or.inl rfl) h)
    · split
      · rename_i hbig hle
        exact SegInv_emit hsub (Or.inl rfl) p h (Or.inl (Nat.le_of_not_lt hbig))
      · rename_i hle
        exact SegInv_push p h (Nat.le_of_not_lt hle)

theorem SegInv_phraseFold {tok : Str → Nat} {maxT : Nat} (hsub : Subadditive tok) :
    ∀ (ps : List Str) (st : ChunkState), SegInv tok maxT st →
      SegInv tok maxT (ps.foldl (phraseStep tok maxT) st) := by
  intro ps
  induction ps with
  | nil => intro st h; exact h
  | cons p ps2 ih =>
    intro st h
    simp only [List.foldl_cons]
    exact ih _ (SegInv_phraseStep hsub p h)

theorem SegInv_sentenceStep {tok : Str → Nat} {maxT : Nat} (hsub : Subadditive tok)
    {st : ChunkState} (s : Str) (h : SegInv tok maxT st) :
    SegInv tok maxT (sentenceStep tok maxT st s) := by
  unfold sentenceStep
  split
  · exact h
  · split
    · exact SegInv_phraseFold hsub (reSplitPhrase s) (flushWith sp st)
        (SegInv_flushWith hsub (Or.inl rfl) h)
    · split
      · rename_i hbig hle
        exact SegInv_emit hsub (Or.inl rfl) s h (Or.inl (Nat.le_of_not_lt hbig))
      · rename_i hle
        exact SegInv_push s h (Nat.le_of_not_lt hle)

theorem SegInv_sentFold {tok : Str → Nat} {maxT : Nat} (hsub : Subadditive tok) :
    ∀ (ss : List Str) (st : ChunkState), SegInv tok maxT st →
      SegInv tok maxT (ss.foldl (sentenceStep tok maxT) st) := by
  intro ss
  induction ss with
  | nil => intro st h; exact h
  | cons s ss2 ih =>
    intro st h
    simp only [List.foldl_cons]
    exact ih _ (SegInv_sentenceStep hsub s h)

theorem SegInv_paraStep {tok : Str → Nat} {maxT : Nat} (hsub : Subadditive tok)
    {st : ChunkState} (p : Str) (h : SegInv tok maxT st) :
    SegInv tok maxT (paraStep tok maxT st p) := by
  unfold paraStep
  split
  · exact h
  · split
    · exact SegInv_sentFold hsub (sentencesOf p) (flushWith nn st)
        (SegInv_flushWith hsub (Or.inr rfl) h)
    · split
      · rename_i hbig hle
        exact SegInv_emit hsub (Or.inr rfl) p h (Or.inl (Nat.le_of_not_lt hbig))
      · rename_i hle
        exact SegInv_push p h (Nat.le_of_not_lt hle)

theorem SegInv_paraFold {tok : Str → Nat} {maxT : Nat} (hsub : Subadditive tok) :
    ∀ (ps : List Str) (st : ChunkState), SegInv tok maxT st →
      SegInv tok maxT (ps.foldl (paraStep tok maxT) st) := by
  intro ps
  induction ps with
  | nil => intro st h; exact h
  | cons p ps2 ih =>
    intro st h
    simp only [List.foldl_cons]
    exact ih _ (SegInv_paraStep hsub p h)

theorem finishChunks_good {tok : Str → Nat} {maxT : Nat} (hsub : Subadditive tok)
    {st : ChunkState} (h : SegInv tok maxT st) :
    ∀ c ∈ finishChunks st, GoodChunk tok maxT c := by
  obtain ⟨h1, h2, h3⟩ := h
  unfold finishChunks
  intro c hc
  split at hc
  · exact h3 c hc
  · rename_i hcur
    rcases List.mem_append.mp hc with hmem | hmem
    · exact h3 c hmem
    · rw [List.mem_singleton.mp hmem]
      have hdisj : ((st.cur.map tok).sum ≤ maxT) ∨ ∃ w, st.cur = [w] ∧ Wordish w := by
        rcases h2 with h2 | h2
        · exact Or.inl (h1 ▸ h2)
        · exact Or.inr h2
      split
      · exact GoodChunk_join hsub (Or.inr rfl) hcur hdisj
      · exact GoodChunk_join hsub (Or.inl rfl) hcur hdisj

theorem chunkCore_good {tok : Str → Nat} {maxT : Nat} (hsub : Subadditive tok)
    (text : Str) : ∀ c ∈ chunkCore tok text maxT, GoodChunk tok maxT c := by
  unfold chunkCore
  exact finishChunks_good hsub
    (SegInv_paraFold hsub (splitOnNN text) ⟨[], [], 0⟩ (SegInv_init tok maxT))

theorem chunkCore_ne_nil {tok : Str → Nat} {maxT : Nat} {text : Str}
    (hw : pyWords text ≠ []) : chunkCore tok text maxT ≠ [] := by
  intro h
  have h2 := chunkCore_words tok text maxT
  rw [h] at h2
  simp at h2
  exact hw h2

theorem chunk_by_tokens_budget {tok : Str → Nat} {maxT : Nat} {text : Str}
    (hsub : Subadditive tok) (hw : pyWords text ≠ []) :
    ∀ c ∈ chunk_by_tokens tok text maxT, GoodChunk tok maxT c := by
  unfold chunk_by_tokens
  split
  · simp
  · split
    · rename_i hfit
      intro c hc
      rw [List.mem_singleton.mp hc]
      exact Or.inl hfit
    · split
      · rename_i hnil
        exact absurd hnil (chunkCore_ne_nil hw)
      · exact chunkCore_good hsub text

/-! ### Non-blankness of emitted chunks -/

theorem pyWords_joinSep_ne_nil {sep : Str} (h1 : sep ≠ [])
    (h2 : ∀ c ∈ sep, pyIsSpace c = true) {l : List Str} (hl : l ≠ [])
    (hall : ∀ p ∈ l, pyWords p ≠ []) : pyWords (joinSep sep l) ≠ [] := by
  rw [pyWords_joinSep h1 h2 l]
  cases l with
  | nil => exact absurd rfl hl
  | cons p rest =>
    simp only [List.map_cons, List.flatten_cons]
    intro hcontra
    exact hall p (List.mem_cons_self p rest) (List.append_eq_nil.mp hcontra).1

theorem NonBlankInv_flushWith {sep : Str} (h1 : sep ≠ [])
    (h2 : ∀ c ∈ sep, pyIsSpace c = true) {st : ChunkState}
    (h : NonBlankInv st) : NonBlankInv (flushWith sep st) := by
  obtain ⟨ha, hb⟩ := h
  unfold flushWith
  split
  · exact ⟨ha, hb⟩
  · rename_i hcur
    refine ⟨?_, by simp⟩
    intro c hc
    rcases List.mem_append.mp hc with hmem | hmem
    · exact ha c hmem
    · rw [List.mem_singleton.mp hmem]
      exact pyWords_joinSep_ne_nil h1 h2 hcur hb

theorem NonBlankInv_emit {sep : Str} (h1 : sep ≠ [])
    (h2 : ∀ c ∈ sep, pyIsSpace c = true) {st : ChunkState} {p : Str} (k : Nat)
    (h : NonBlankInv st) (hp : pyWords p ≠ []) :
    NonBlankInv
      ⟨(if st.cur = [] then st.chunks else st.chunks ++ [joinSep sep st.cur]), [p], k⟩ := by
  obtain ⟨ha, hb⟩ := h
  refine ⟨?_, ?_⟩
  · intro c hc
    split at hc
    · exact ha c hc
    · rename_i hcur
      rcases List.mem_append.mp hc with hmem | hmem
      · exact ha c hmem
      · rw [List.mem_singleton.mp hmem]
        exact pyWords_joinSep_ne_nil h1 h2 hcur hb
  · intro q hq
    rw [List.mem_singleton.mp hq]
    exact hp

theorem NonBlankInv_push {st : ChunkState} {p : Str} (k : Nat)
    (h : NonBlankInv st) (hp : pyWords p ≠ []) :
    NonBlankInv ⟨st.chunks, st.cur ++ [p], k⟩ := by
  obtain ⟨ha, hb⟩ := h
  refine ⟨ha, ?_⟩
  intro q hq
  rcases List.mem_append.mp hq with hmem | hmem
  · exact hb q hmem
  · rw [List.mem_singleton.mp hmem]
    exact hp

theorem NonBlankInv_wordStep {tok : Str → Nat} {maxT : Nat} {st : ChunkState} {w : Str}
    (hw : Wordish w) (h : NonBlankInv st) : NonBlankInv (wordStep tok maxT st w) := by
  have hpw : pyWords w ≠ [] := by
    rw [pyWords_of_word hw.1 hw.2]
    simp
  unfold wordStep
  split
  · exact NonBlankInv_emit sp_ne_nil sp_spaces (tok w) h hpw
  · exact NonBlankInv_push (st.curTok + tok w) h hpw

theorem NonBlankInv_wordFold {tok : Str → Nat} {maxT : Nat} :
    ∀ (ws : List Str) (st : ChunkState), (∀ w ∈ ws, Wordish w) → NonBlankInv st →
      NonBlankInv (ws.foldl (wordStep tok maxT) st) := by
  intro ws
  induction ws with
  | nil => intro st _ h; exact h
  | cons w ws2 ih =>
    intro st hall h
    simp only [List.foldl_cons]
    exact ih _ (fun x hx => hall x (List.mem_cons_of_mem w hx))
      (NonBlankInv_wordStep (hall w (List.mem_cons_self w ws2)) h)

theorem NonBlankInv_phraseStep {tok : Str → Nat} {maxT : Nat} {st : ChunkState} (p : Str)
    (h : NonBlankInv st) : NonBlankInv (phraseStep tok maxT st p) := by
  unfold phraseStep
  split
  · exact h
  · rename_i hblank
    have hp : pyWords p ≠ [] := fun hc => hblank ((pyWords_nil_iff_strip p).mp hc)
    split
    · exact NonBlankInv_wordFold (pyWords p) (flushWith sp st)
        (fun w hw => ⟨(mem_pyWords hw).1, (mem_pyWords hw).2⟩)
        (NonBlankInv_flushWith sp_ne_nil sp_spaces h)
    · split
      · exact NonBlankInv_emit sp_ne_nil sp_spaces (tok p) h hp
      · exact NonBlankInv_push (st.curTok + tok p) h hp

theorem NonBlankInv_phraseFold {tok : Str → Nat} {maxT : Nat} :
    ∀ (ps : List Str) (st : ChunkState), NonBlankInv st →
      NonBlankInv (ps.foldl (phraseStep tok maxT) st) := by
  intro ps
  induction ps with
  | nil => intro st h; exact h
  | cons p ps2 ih =>
    intro st h
    simp only [List.foldl_cons]
    exact ih _ (NonBlankInv_phraseStep p h)

theorem NonBlankInv_sentenceStep {tok : Str → Nat} {maxT : Nat} {st : ChunkState} (s : Str)
    (h : NonBlankInv st) : NonBlankInv (sentenceStep tok maxT st s) := by
  unfold sentenceStep
  split
  · exact h
  · rename_i hblank
    have hp : pyWords s ≠ [] := fun hc => hblank ((pyWords_nil_iff_strip s).mp hc)
    split
    · exact NonBlankInv_phraseFold (reSplitPhrase s) (flushWith sp st)
        (NonBlankInv_flushWith sp_ne_nil sp_spaces h)
    · split
      · exact NonBlankInv_emit sp_ne_nil sp_spaces (tok s) h hp
      · exact NonBlankInv_push (st.curTok + tok s) h hp

theorem NonBlankInv_sentFold {tok : Str → Nat} {maxT : Nat} :
    ∀ (ss : List Str) (st : ChunkState), NonBlankInv st →
      NonBlankInv (ss.foldl (sentenceStep tok maxT) st) := by
  intro ss
  induction ss with
  | nil => intro st h; exact h
  | cons s ss2 ih =>
    intro st h
    simp only [List.foldl_cons]
    exact ih _ (NonBlankInv_sentenceStep s h)

theorem NonBlankInv_paraStep {tok : Str → Nat} {maxT : Nat} {st : ChunkState} (p : Str)
    (h : NonBlankInv st) : NonBlankInv (paraStep tok maxT st p) := by
  unfold paraStep
  split
  · exact h
  · rename_i hblank
    have hp : pyWords p ≠ [] := fun hc => hblank ((pyWords_nil_iff_strip p).mp hc)
    split
    · exact NonBlankInv_sentFold (sentencesOf p) (flushWith nn st)
        (NonBlankInv_flushWith nn_ne_nil nn_spaces h)
    · split
      · exact NonBlankInv_emit nn_ne_nil nn_spaces (tok p) h hp
      · exact NonBlankInv_push (st.curTok + tok p) h hp

theorem NonBlankInv_paraFold {tok : Str → Nat} {maxT : Nat} :
    ∀ (ps : List Str) (st : ChunkState), NonBlankInv st →
      NonBlankInv (ps.foldl (paraStep tok maxT) st) := by
  intro ps
  induction ps with
  | nil => intro st h; exact h
  | cons p ps2 ih =>
    intro st h
    simp only [List.foldl_cons]
    exact ih _ (NonBlankInv_paraStep p h)

theorem finishChunks_nonblank {st : ChunkState} (h : NonBlankInv st) :
    ∀ c ∈ finishChunks st, pyWords c ≠ [] := by
  obtain ⟨ha, hb⟩ := h
  unfold finishChunks
  intro c hc
  split at hc
  · exact ha c hc
  · rename_i hcur
    rcases List.mem_append.mp hc with hmem | hmem
    · exact ha c hmem
    · rw [List.mem_singleton.mp hmem]
      split
      · exact pyWords_joinSep_ne_nil nn_ne_nil nn_spaces hcur hb
      · exact pyWords_joinSep_ne_nil sp_ne_nil sp_spaces hcur hb

theorem chunk_by_tokens_nonblank {tok : Str → Nat} {maxT : Nat} {text : Str}
    (hw : pyWords text ≠ []) :
    ∀ c ∈ chunk_by_tokens tok text maxT, pyWords c ≠ [] := by
  unfold chunk_by_tokens
  split
  · simp
  · split
    · intro c hc
      rw [List.mem_singleton.mp hc]
      exact hw
    · split
      · rename_i hnil
        exact absurd hnil (chunkCore_ne_nil hw)
      · unfold chunkCore
        exact finishChunks_nonblank
          (NonBlankInv_paraFold (splitOnNN text) ⟨[], [], 0⟩ ⟨by simp, by simp⟩)

/-! ### The progress trace of one run -/

theorem loopTrace_total (N : Nat) :
    ∀ (cs : List Str) (i : Nat), ∀ s ∈ loopTrace N i cs, s.total_batches = N := by
  intro cs
  induction cs with
  | nil => intro i s hs; simp [loopTrace] at hs
  | cons c cs2 ih =>
    intro i s hs
    rw [loopTrace] at hs
    rcases List.mem_cons.mp hs with h1 | hs2
    · rw [h1]
    · rcases List.mem_cons.mp hs2 with h2 | hs3
      · rw [h2]
      · exact ih (i + 1) s hs3

theorem loopTrace_current_le (N : Nat) :
    ∀ (cs : List Str) (i : Nat), i + cs.length ≤ N →
      ∀ s ∈ loopTrace N i cs, s.current_batch ≤ N := by
  intro cs
  induction cs with
  | nil => intro i _ s hs; simp [loopTrace] at hs
  | cons c cs2 ih =>
    intro i hle s hs
    rw [loopTrace] at hs
    simp only [List.length_cons] at hle
    rcases List.mem_cons.mp hs with h1 | hs2
    · rw [h1]; dsimp only; omega
    · rcases List.mem_cons.mp hs2 with h2 | hs3
      · rw [h2]; dsimp only; omega
      · exact ih (i + 1) (by omega) s hs3

theorem loopTrace_map_current (N : Nat) :
    ∀ (cs : List Str) (i : Nat),
      (loopTrace N i cs).map Progress.current_batch =
        ((List.range' i cs.length).map (fun j => [j, j + 1])).flatten := by
  intro cs
  induction cs with
  | nil => intro i; simp [loopTrace]
  | cons c cs2 ih =>
    intro i
    rw [loopTrace]
    simp only [List.length_cons, List.range'_succ, List.map_cons, List.flatten_cons]
    rw [ih (i + 1)]
    rfl

theorem loopTrace_getLast (N : Nat) :
    ∀ (cs : List Str) (i : Nat), cs ≠ [] →
      ((loopTrace N i cs).getLast?).map Progress.current_batch = some (i + cs.length) := by
  intro cs
  induction cs with
  | nil => intro i h; exact absurd rfl h
  | cons c cs2 ih =>
    intro i _
    rw [loopTrace]
    cases cs2 with
    | nil => simp [loopTrace]
    | cons c2 cs3 =>
      rw [List.getLast?_cons_cons]
      have hexp : loopTrace N (i + 1) (c2 :: cs3) =
          ⟨i + 1, N, preview c2⟩ :: ⟨i + 2, N, preview c2⟩ :: loopTrace N (i + 2) cs3 := by
        rw [loopTrace]
      rw [hexp, List.getLast?_cons_cons, ← hexp]
      rw [ih (i + 1) (by simp)]
      simp only [List.length_cons]
      congr 1
      omega

theorem loopTrace_dropLast_lt (N : Nat) :
    ∀ (cs : List Str) (i : Nat), i + cs.length ≤ N →
      ∀ s ∈ (loopTrace N i cs).dropLast, s.current_batch < N := by
  intro cs
  induction cs with
  | nil => intro i _ s hs; simp [loopTrace] at hs
  | cons c cs2 ih =>
    intro i hle s hs
    simp only [List.length_cons] at hle
    rw [loopTrace] at hs
    cases cs2 with
    | nil =>
      simp [loopTrace] at hs
      rw [hs]
      dsimp only
      omega
    | cons c2 cs3 =>
      simp only [List.length_cons] at hle
      have hne : loopTrace N (i + 1) (c2 :: cs3) ≠ [] := by rw [loopTrace]; simp
      rw [List.dropLast_cons₂] at hs
      rcases List.mem_cons.mp hs with h1 | hs2
      · rw [h1]; dsimp only; omega
      · rw [List.dropLast_cons_of_ne_nil hne] at hs2
        rcases List.mem_cons.mp hs2 with h2 | hs3
        · rw [h2]; dsimp only; omega
        · exact ih (i + 1) (by simp only [List.length_cons]; omega) s hs3

/-! ### Inversion of a successful `translate` run -/

theorem translate_ok_cases {tok : Str → Nat} {port : Str → Str} {text l1 l2 : Str}
    {run : RunLog} (h : translate tok port text l1 l2 = .ok run) :
    run = ⟨text, [], [], []⟩ ∨
      (text ≠ [] ∧ run = mainRun tok port text ∧
        ∃ s t, normalize_language_code l1 = .ok s ∧
          normalize_language_code l2 = .ok t ∧ s ≠ t) := by
  unfold translate at h
  split at h
  · exact Or.inl (Except.ok.inj h).symm
  · rename_i htext
    split at h
    · simp at h
    · rename_i src hsrc
      split at h
      · simp at h
      · rename_i tgt htgt
        split at h
        · rename_i heq
          exact Or.inl (Except.ok.inj h).symm
        · rename_i hne
          exact Or.inr ⟨htext, (Except.ok.inj h).symm, src, tgt, hsrc, htgt, hne⟩

/-! ### Oracle facts and run-shape lemmas -/

theorem wordCountTok_subadditive : Subadditive wordCountTok := by
  intro a b
  constructor
  · unfold wordCountTok
    rw [pyWords_append_space (by decide) a b, List.length_append]
  · unfold wordCountTok
    rw [pyWords_append_space (c := '\n') (by decide) a ('\n' :: b),
      pyWords_cons_space (by decide) b, List.length_append]

theorem pow2tok_specMonotone : SpecMonotone pow2tok := by
  intro a b
  unfold pow2tok
  constructor <;>
    exact Nat.pow_le_pow_right (by omega) (by simp [List.length_append])

theorem translate_batch_singleton (port : Str → Str) (c : Str) :
    translate_batch port [c] = ⟨[port c], []⟩ := by
  simp [translate_batch]

theorem mainRun_dispatched (tok : Str → Nat) (port : Str → Str) (text : Str) :
    (mainRun tok port text).dispatched = chunk_by_tokens tok text 250 := rfl

theorem mainRun_trace (tok : Str → Nat) (port : Str → Str) (text : Str) :
    (mainRun tok port text).trace =
      ⟨0, 0, []⟩ :: ⟨0, (chunk_by_tokens tok text 250).length, []⟩ ::
        ⟨0, (chunk_by_tokens tok text 250).length, []⟩ ::
        loopTrace (chunk_by_tokens tok text 250).length 0
          (chunk_by_tokens tok text 250) := rfl

theorem mainRun_output (tok : Str → Nat) (port : Str → Str) (text : Str) :
    (mainRun tok port text).output =
      joinSep nn ((chunk_by_tokens tok text 250).map port) := rfl

theorem mainRun_warnings (tok : Str → Nat) (port : Str → Str) (text : Str) :
    (mainRun tok port text).warnings = [] := by
  simp only [mainRun]
  rw [show (fun c => (translate_batch port [c]).warnings) = fun _ => ([] : List Str) by
    funext c; rw [translate_batch_singleton]]
  simp

theorem loopTrace_ne_nil (N i : Nat) {cs : List Str} (h : cs ≠ []) :
    loopTrace N i cs ≠ [] := by
  cases cs with
  | nil => exact absurd rfl h
  | cons c cs2 => rw [loopTrace]; simp

theorem getLast?_cons_ne_nil {α : Type} (a : α) {l : List α} (h : l ≠ []) :
    (a :: l).getLast? = l.getLast? := by
  cases l with
  | nil => exact absurd rfl h
  | cons b t => exact List.getLast?_cons_cons

theorem normalize_err {l : Str} (h : lookupLang (pyStrip (pyLower l)) = none) :
    normalize_language_code l = .error (.unsupportedLanguage l) := by
  unfold normalize_language_code
  rw [h]

theorem normalize_ok {l s : Str} (h : lookupLang (pyStrip (pyLower l)) = some s) :
    normalize_language_code l = .ok s := by
  unfold normalize_language_code
  rw [h]

/-! ### The claims -/

/-- Claim C2 (confirmed): for every Token Budget Oracle, input text and
budget, concatenating the words of all segments returned by
`_chunk_by_tokens` — thereby ignoring the separators it inserted — yields
exactly the original sequence of whitespace-delimited words of the input:
no word is split across a segment boundary, dropped, or cut mid-character. -/
theorem C2_no_midword_splits (tok : Str → Nat) (text : Str) (maxT : Nat) :
    ((chunk_by_tokens tok text maxT).map pyWords).flatten = pyWords text :=
  chunk_by_tokens_words tok text maxT

/-- Claim C1 counterexample: an oracle that is deterministic and monotone in
exactly the sense the specification assumes (`SpecMonotone`) under which
`_chunk_by_tokens` emits a segment whose own token count exceeds the budget
although it is not a single word: with `tok s = 2 ^ len s` and budget 8,
the two words of `"ab cd"` (4 tokens each) are greedily packed because
their counts sum to 8, but the emitted joined segment costs 64 tokens. -/
theorem C1_counterexample :
    SpecMonotone pow2tok ∧
    chunk_by_tokens pow2tok "ab cd".data 8 = ["ab\n\ncd".data] ∧
    8 < pow2tok "ab\n\ncd".data ∧
    ¬ ("ab\n\ncd".data ≠ [] ∧ ∀ ch ∈ "ab\n\ncd".data, pyIsSpace ch = false) :=
  ⟨pow2tok_specMonotone, by decide, by decide, by decide⟩

/-- Claim C1 amended: the budget invariant holds under the stronger (and
needed) assumption that the oracle is subadditive across the inserted
separators, and for input that contains at least one non-whitespace
character (a whitespace-only input can reach the defensive `[text]`
fallback, which is not a single word): every segment returned by
`_chunk_by_tokens` has token count at most the budget, except that a
segment may exceed the budget only when it is exactly one word containing
no embedded whitespace. -/
theorem C1_amended_budget_invariant (tok : Str → Nat) (maxT : Nat) (text : Str)
    (hsub : Subadditive tok) (hw : pyWords text ≠ []) :
    ∀ c ∈ chunk_by_tokens tok text maxT,
      tok c ≤ maxT ∨ (c ≠ [] ∧ ∀ ch ∈ c, pyIsSpace ch = false) := by
  intro c hc
  rcases chunk_by_tokens_budget hsub hw c hc with h | h
  · exact Or.inl h
  · exact Or.inr ⟨h.1, h.2⟩

/-- Claim C1 witness: the amended budget invariant applied to the
word-counting oracle (which is subadditive) on the text `"hi"` with
budget 250. -/
theorem C1_amended_witness :
    Subadditive wordCountTok ∧ pyWords "hi".data ≠ [] ∧
      (wordCountTok "hi".data ≤ 250 ∨
        ("hi".data ≠ [] ∧ ∀ ch ∈ "hi".data, pyIsSpace ch = false)) :=
  ⟨wordCountTok_subadditive, by decide,
    C1_amended_budget_invariant wordCountTok 250 "hi".data wordCountTok_subadditive
      (by decide) "hi".data (by decide)⟩

/-- Claim C3 counterexample: a run whose single dispatched unit has a token
count of 1000, so its count without a truncation limit (1000) differs from
its count under the Port's 768-token input limit (min 1000 768 = 768), yet
the diagnostics recorded by the run are empty — `_translate_batch`
performs no comparison and records no warning. -/
theorem C3_counterexample :
    min (kiloTok "hi".data) 768 ≠ kiloTok "hi".data ∧
    (translate kiloTok id "hi".data "en".data "pt".data).toOption.map
        (fun r => (r.dispatched, r.warnings)) = some (["hi".data], []) :=
  ⟨by decide, by decide⟩

/-- Claim C3 amended: the code performs no truncation detection at all —
no token-count comparison before dispatch and no end-of-sequence inspection
after generation; no warning is ever recorded or observable.  The (possibly
silently truncated) translated text is still returned: a successful run's
output is the double-newline join of the Port's translations of the
dispatched units. -/
theorem C3_amended_silent_truncation (tok : Str → Nat) (port : Str → Str)
    (text l1 l2 : Str) (run : RunLog) (h : translate tok port text l1 l2 = .ok run) :
    run.warnings = [] ∧
      (run.dispatched = [] ∨ run.output = joinSep nn (run.dispatched.map port)) := by
  rcases translate_ok_cases h with hcase | ⟨_, hrun, _⟩
  · subst hcase
    exact ⟨rfl, Or.inl rfl⟩
  · subst hrun
    refine ⟨mainRun_warnings tok port text, Or.inr ?_⟩
    rw [mainRun_output, mainRun_dispatched]

/-- Claim C3 witness: the amended statement applied to a concrete run. -/
theorem C3_amended_witness :
    unitRun.warnings = [] ∧
      (unitRun.dispatched = [] ∨ unitRun.output = joinSep nn (unitRun.dispatched.map id)) :=
  C3_amended_silent_truncation oneTok id "a".data "en".data "pt".data unitRun (by decide)

/-- Claim C4 counterexample: a run in which the whole text, its only
paragraph, sentence and phrase all exceed the 250-token budget while every
single word fits, so segmentation descends to the word-level fallback and
produces the segments `["ab cd", "ef"]`; the final output joins them with a
double newline, not the single space the claim requires for word-level
granularity. -/
theorem C4_counterexample :
    250 < sixtyTok "ab cd ef".data ∧
    (∀ w ∈ pyWords "ab cd ef".data, sixtyTok w ≤ 250) ∧
    (translate sixtyTok id "ab cd ef".data "en".data "pt".data).toOption.map
        (fun r => (r.dispatched, r.output)) =
      some (["ab cd".data, "ef".data], "ab cd\n\nef".data) ∧
    joinSep sp ["ab cd".data, "ef".data] ≠ "ab cd\n\nef".data :=
  ⟨by decide, by decide, by decide, by decide⟩

/-- Claim C4 amended: when assembling the final output, `translate` joins
the translated segments with a double newline regardless of the granularity
at which segmentation produced them — the word-level fallback included
(`"\n\n".join(results)`, line 243). -/
theorem C4_amended_double_newline_join (tok : Str → Nat) (port : Str → Str)
    (text l1 l2 s t : Str) (run : RunLog)
    (h1 : normalize_language_code l1 = .ok s)
    (h2 : normalize_language_code l2 = .ok t) (hne : s ≠ t) (htext : text ≠ [])
    (h : translate tok port text l1 l2 = .ok run) :
    run.dispatched = chunk_by_tokens tok text 250 ∧
      run.output = joinSep nn (run.dispatched.map port) := by
  unfold translate at h
  rw [if_neg htext] at h
  simp only [h1, h2] at h
  rw [if_neg hne] at h
  have hrun := (Except.ok.inj h).symm
  subst hrun
  refine ⟨mainRun_dispatched tok port text, ?_⟩
  rw [mainRun_output, mainRun_dispatched]

/-- Claim C4 witness: the amended statement applied to a concrete run. -/
theorem C4_amended_witness :
    unitRun.dispatched = chunk_by_tokens oneTok "a".data 250 ∧
      unitRun.output = joinSep nn (unitRun.dispatched.map id) :=
  C4_amended_double_newline_join oneTok id "a".data "en".data "pt".data
    "en".data "pt".data unitRun (by decide) (by decide) (by decide) (by decide) (by decide)

/-- Claim C5 counterexample: on the specification's own scenario text, the
classifier modelled from the specification's classification rules does not
return the block sequence the scenario expects — the final line
`"Body text here."` is 15 characters long and starts with an uppercase
letter, so the header rule (priority above the paragraph fallback)
captures it. -/
theorem C5_counterexample :
    classify "Title:\n- item one\n- item two\n\nBody text here.".data ≠
      [Block.header "Title:".data, Block.bullet "- item one".data,
       Block.bullet "- item two".data, Block.blank,
       Block.paragraph "Body text here.".data] := by decide

/-- Claim C5 amended: the classifier modelled from the specification's
rules returns, on the scenario text, the expected sequence except that the
final block is `header("Body text here.")` rather than a paragraph, since
the specification's header rule (line of at most 50 characters starting
with an uppercase letter) applies to that line. -/
theorem C5_amended_scenario :
    classify "Title:\n- item one\n- item two\n\nBody text here.".data =
      [Block.header "Title:".data, Block.bullet "- item one".data,
       Block.bullet "- item two".data, Block.blank,
       Block.header "Body text here.".data] := by decide

/-- Claim C6 counterexample: on the whitespace-only input `" "` the
segmenter returns the whitespace-only segment unchanged, and `translate`
dispatches it to the Translation Port with no defensive filtering: the
dispatched unit is empty after trimming. -/
theorem C6_counterexample :
    (chunk_by_tokens oneTok " ".data 250).map pyStrip = [[]] ∧
    (translate oneTok id " ".data "en".data "pt".data).toOption.map
        (fun r => r.dispatched.map pyStrip) = some [[]] :=
  ⟨by decide, by decide⟩

/-- Claim C6 amended: provided the input contains at least one
non-whitespace character, every segment produced by `_chunk_by_tokens`
(for any budget) is non-empty after trimming, and every unit dispatched to
the Translation Port by a successful `translate` run is non-empty after
trimming.  For whitespace-only non-empty input the property fails and no
filtering exists (see the counterexample). -/
theorem C6_amended_nonblank_units (tok : Str → Nat) (port : Str → Str)
    (text l1 l2 : Str) (run : RunLog) (hw : pyWords text ≠ [])
    (h : translate tok port text l1 l2 = .ok run) :
    (∀ maxT : Nat, ∀ c ∈ chunk_by_tokens tok text maxT, pyStrip c ≠ []) ∧
      ∀ u ∈ run.dispatched, pyStrip u ≠ [] := by
  have hch : ∀ maxT : Nat, ∀ c ∈ chunk_by_tokens tok text maxT, pyStrip c ≠ [] := by
    intro maxT c hc hstrip
    exact chunk_by_tokens_nonblank hw c hc ((pyWords_nil_iff_strip c).mpr hstrip)
  refine ⟨hch, ?_⟩
  rcases translate_ok_cases h with hcase | ⟨_, hrun, _⟩
  · subst hcase
    intro u hu
    simp at hu
  · subst hrun
    rw [mainRun_dispatched]
    exact hch 250

/-- Claim C6 witness: the amended statement applied to a concrete run. -/
theorem C6_amended_witness :
    (∀ maxT : Nat, ∀ c ∈ chunk_by_tokens oneTok "a".data maxT, pyStrip c ≠ []) ∧
      ∀ u ∈ unitRun.dispatched, pyStrip u ≠ [] :=
  C6_amended_nonblank_units oneTok id "a".data "en".data "pt".data unitRun
    (by decide) (by decide)

/-- Claim C7 (confirmed): for every non-empty input text, if either
language argument's lower-cased trimmed form is absent from the language
table, `translate` fails with an "unsupported language" error naming an
offending argument; moreover the result is the same for every Token Budget
Oracle and every Translation Port, so neither segmentation nor any Port
call can have taken place. -/
theorem C7_unsupported_language_fails_fast (text l1 l2 : Str) (htext : text ≠ [])
    (h : lookupLang (pyStrip (pyLower l1)) = none ∨
      lookupLang (pyStrip (pyLower l2)) = none) :
    ∃ l, (l = l1 ∨ l = l2) ∧ lookupLang (pyStrip (pyLower l)) = none ∧
      ∀ (tok2 : Str → Nat) (port2 : Str → Str),
        translate tok2 port2 text l1 l2 = .error (.unsupportedLanguage l) := by
  rcases hl1 : lookupLang (pyStrip (pyLower l1)) with _ | s
  · refine ⟨l1, Or.inl rfl, hl1, ?_⟩
    intro tok2 port2
    unfold translate
    rw [if_neg htext]
    simp [normalize_err hl1]
  · rcases h with h | h
    · rw [hl1] at h
      exact absurd h (by simp)
    · refine ⟨l2, Or.inr rfl, h, ?_⟩
      intro tok2 port2
      unfold translate
      rw [if_neg htext]
      simp [normalize_ok hl1, normalize_err h]

/-- Claim C7 witness: the fail-fast behaviour on the unsupported language
name `"klingon"`. -/
theorem C7_witness :
    ∃ l, (l = "klingon".data ∨ l = "en".data) ∧
      lookupLang (pyStrip (pyLower l)) = none ∧
      ∀ (tok2 : Str → Nat) (port2 : Str → Str),
        translate tok2 port2 "a".data "klingon".data "en".data =
          .error (.unsupportedLanguage l) :=
  C7_unsupported_language_fails_fast "a".data "klingon".data "en".data (by decide)
    (Or.inl (by decide))

/-- Claim C8 (confirmed): whenever the two language arguments resolve to
the identical backend tag, `translate` returns the input text unchanged
with no dispatched unit, no progress activity and no diagnostics — for
every oracle, every port and every text, the empty text included. -/
theorem C8_same_tag_noop (tok : Str → Nat) (port : Str → Str) (text l1 l2 s : Str)
    (h1 : normalize_language_code l1 = .ok s)
    (h2 : normalize_language_code l2 = .ok s) :
    translate tok port text l1 l2 = .ok ⟨text, [], [], []⟩ := by
  unfold translate
  split
  · rfl
  · simp [h1, h2]

/-- Claim C8 witness: translating from `"en"` to `"english"` (both resolve
to the tag `en`) is a no-op. -/
theorem C8_witness :
    translate oneTok id "hi".data "en".data "english".data =
      .ok ⟨"hi".data, [], [], []⟩ :=
  C8_same_tag_noop oneTok id "hi".data "en".data "english".data "en".data
    (by decide) (by decide)

/-- Claim C9 (confirmed): over one translating run the Progress State
satisfies `current_batch ≤ total_batches` at every observed value; after
the initial reset value the total equals the number of units and never
changes; the successive values of `current_batch` are exactly
`0, 0, 0, 0, 1, 1, 2, 2, 3, ..., N` (starting at 0 and increasing by
exactly one after each completed unit); the final observed value is `N`;
and every observation before the last is strictly below `N`. -/
theorem C9_progress_invariants (tok : Str → Nat) (port : Str → Str)
    (text l1 l2 : Str) (run : RunLog)
    (h : translate tok port text l1 l2 = .ok run) (hne : run.dispatched ≠ []) :
    (∀ s ∈ run.trace, s.current_batch ≤ s.total_batches) ∧
    (∀ s ∈ run.trace.drop 1, s.total_batches = run.dispatched.length) ∧
    (run.trace.map Progress.current_batch =
      0 :: 0 :: 0 ::
        ((List.range run.dispatched.length).map (fun i => [i, i + 1])).flatten) ∧
    ((run.trace.getLast?).map Progress.current_batch = some run.dispatched.length) ∧
    (∀ s ∈ run.trace.dropLast, s.current_batch < run.dispatched.length) := by
  rcases translate_ok_cases h with hcase | ⟨_, hrun, _⟩
  · subst hcase
    simp at hne
  · subst hrun
    rw [mainRun_dispatched, mainRun_trace]
    rw [mainRun_dispatched] at hne
    have hloopne : loopTrace (chunk_by_tokens tok text 250).length 0
        (chunk_by_tokens tok text 250) ≠ [] :=
      loopTrace_ne_nil (chunk_by_tokens tok text 250).length 0 hne
    have hNpos : 1 ≤ (chunk_by_tokens tok text 250).length := by
      cases hcc : chunk_by_tokens tok text 250 with
      | nil => exact absurd hcc hne
      | cons a l => simp
    refine ⟨?_, ?_, ?_, ?_, ?_⟩
    · intro s hs
      rcases List.mem_cons.mp hs with hm | hs2
      · rw [hm]
      · rcases List.mem_cons.mp hs2 with hm | hs3
        · rw [hm]; exact Nat.zero_le _
        · rcases List.mem_cons.mp hs3 with hm | hs4
          · rw [hm]; exact Nat.zero_le _
          · rw [loopTrace_total (chunk_by_tokens tok text 250).length
              (chunk_by_tokens tok text 250) 0 s hs4]
            exact loopTrace_current_le (chunk_by_tokens tok text 250).length
              (chunk_by_tokens tok text 250) 0 (by omega) s hs4
    · intro s hs
      simp only [List.drop_succ_cons, List.drop_zero] at hs
      rcases List.mem_cons.mp hs with hm | hs2
      · rw [hm]
      · rcases List.mem_cons.mp hs2 with hm | hs3
        · rw [hm]
        · exact loopTrace_total (chunk_by_tokens tok text 250).length
            (chunk_by_tokens tok text 250) 0 s hs3
    · simp only [List.map_cons]
      rw [loopTrace_map_current (chunk_by_tokens tok text 250).length
        (chunk_by_tokens tok text 250) 0, List.range_eq_range']
    · rw [getLast?_cons_ne_nil _ (by simp), getLast?_cons_ne_nil _ (by simp),
        getLast?_cons_ne_nil _ hloopne,
        loopTrace_getLast (chunk_by_tokens tok text 250).length
          (chunk_by_tokens tok text 250) 0 hne]
      simp
    · intro s hs
      rw [List.dropLast_cons₂, List.dropLast_cons₂,
        List.dropLast_cons_of_ne_nil hloopne] at hs
      rcases List.mem_cons.mp hs with hm | hs2
      · rw [hm]; dsimp only; omega
      · rcases List.mem_cons.mp hs2 with hm | hs3
        · rw [hm]; dsimp only; omega
        · rcases List.mem_cons.mp hs3 with hm | hs4
          · rw [hm]; dsimp only; omega
          · exact loopTrace_dropLast_lt (chunk_by_tokens tok text 250).length
              (chunk_by_tokens tok text 250) 0 (by omega) s hs4

/-- Claim C9 witness: the progress invariants on a concrete run with one
unit. -/
theorem C9_witness :
    (∀ s ∈ unitRun.trace, s.current_batch ≤ s.total_batches) ∧
    (∀ s ∈ unitRun.trace.drop 1, s.total_batches = unitRun.dispatched.length) ∧
    (unitRun.trace.map Progress.current_batch =
      0 :: 0 :: 0 ::
        ((List.range unitRun.dispatched.length).map (fun i => [i, i + 1])).flatten) ∧
    ((unitRun.trace.getLast?).map Progress.current_batch =
      some unitRun.dispatched.length) ∧
    (∀ s ∈ unitRun.trace.dropLast, s.current_batch < unitRun.dispatched.length) :=
  C9_progress_invariants oneTok id "a".data "en".data "pt".data unitRun
    (by decide) (by decide)

/-- Claim C10 (confirmed): for every pair of language arguments — malformed
or unsupported ones included — `translate` on the empty text returns the
empty text without raising: the empty-input check precedes language-code
resolution, so no "unsupported language" error can be raised on empty
input. -/
theorem C10_empty_input_returns_empty (tok : Str → Nat) (port : Str → Str)
    (l1 l2 : Str) : translate tok port [] l1 l2 = .ok ⟨[], [], [], []⟩ := rfl

end POC
